import Mathlib

/-!
Verification of the comment-extraction core of the `crawling-facebook`
repository (`src/crawler.py`, class `CommentCrawler`) against its
natural-language specification.

The Python code is shallowly embedded: DOM elements are modelled by the
data the extractor actually reads from them (per-selector query results,
text contents, attribute values), Python strings are `List Char`, and the
two `re.sub` URL-removal calls, `str.split` / `str.strip` / `str.replace`
and the timestamp `re.search` calls are translated as executable functions
over character lists (ASCII whitespace model).  Bounded recursion that is
not structural in Python (left-to-right regex substitution, whitespace
splitting) is implemented with an explicit fuel argument equal to the
input length, so that every definition is executable and reduces by `rfl`
/ `decide`.
-/

/-- Python strings are modelled as lists of characters. -/
abbrev Str := List Char

/-- ASCII whitespace, as recognised by Python's `str.split()` / `str.strip()`
and by the regex class `\s` (the Unicode whitespace characters beyond ASCII
are not modelled). -/
def pyIsSpace (c : Char) : Bool :=
  c = ' ' || c = '\t' || c = '\n' || c = '\r' || c = '\x0b' || c = '\x0c'

/-- Python `str.strip()`: remove leading and trailing whitespace. -/
def pyStrip (l : Str) : Str :=
  ((l.dropWhile pyIsSpace).reverse.dropWhile pyIsSpace).reverse

/-- The character class of the URL-body regexes in `_extract_single_comment`
(crawler.py lines 444-445):
`(?:[a-zA-Z]|[0-9]|[$-_@.&+]|[!*\\(\\),]|(?:%[0-9a-fA-F][0-9a-fA-F]))+`.
`[$-_@.&+]` is the code-point range 0x24-0x5F plus `@ . & +`, and
`[!*\\(\\),]` is the set `! * \ ( ) ,`.  The `%hh` escape alternative adds
nothing to the matched language because `%` and all hexadecimal digits
already lie in the 0x24-0x5F range, so one `%hh` unit is the same three
characters as three single-character units. -/
def urlBodyChar (c : Char) : Bool :=
  ('a' ≤ c && c ≤ 'z') || ('A' ≤ c && c ≤ 'Z') ||
  ('0' ≤ c && c ≤ '9') ||
  ('$' ≤ c && c ≤ '_') ||
  c = '@' || c = '.' || c = '&' || c = '+' ||
  c = '!' || c = '*' || c = '\\' || c = '(' || c = ')' || c = ','

/-- The scheme part of the first URL regex, `http[s]?://`: if `l` starts
with `http://` or `https://`, return the remainder. -/
def httpSchemeAfter : Str → Option Str
  | 'h' :: 't' :: 't' :: 'p' :: 's' :: ':' :: '/' :: '/' :: r => some r
  | 'h' :: 't' :: 't' :: 'p' :: ':' :: '/' :: '/' :: r => some r
  | _ => none

/-- The literal part of the second URL regex, `www\.`. -/
def wwwSchemeAfter : Str → Option Str
  | 'w' :: 'w' :: 'w' :: '.' :: r => some r
  | _ => none

/-- Python `re.sub(scheme ++ body+, '', l)` for the two URL patterns:
scan left to right; at each position, if the scheme matches and at least
one URL-body character follows, delete the scheme together with the
maximal (greedy) run of body characters and resume after it, otherwise
keep the character and move on.  `fuel` is an upper bound on the input
length, making the recursion structural. -/
def reSubDelete (scheme : Str → Option Str) : Nat → Str → Str
  | 0, l => l
  | _ + 1, [] => []
  | fuel + 1, c :: cs =>
    match scheme (c :: cs) with
    | some rest =>
      if (rest.takeWhile urlBodyChar).isEmpty then
        c :: reSubDelete scheme fuel cs
      else
        reSubDelete scheme fuel (rest.dropWhile urlBodyChar)
    | none => c :: reSubDelete scheme fuel cs

/-- `reSubDelete` at its canonical fuel (the input length). -/
def reSubDel (scheme : Str → Option Str) (l : Str) : Str :=
  reSubDelete scheme l.length l

/-- `re.sub(r'http[s]?://...+', '', l)` (crawler.py line 444). -/
def stripHttpUrls (l : Str) : Str := reSubDel httpSchemeAfter l

/-- `re.sub(r'www\....+', '', l)` (crawler.py line 445). -/
def stripWwwUrls (l : Str) : Str := reSubDel wwwSchemeAfter l

/-- Python `str.split()` (no argument): split on runs of whitespace,
returning the list of non-empty tokens.  Fuel-structured recursion. -/
def pySplitF : Nat → Str → List Str
  | 0, _ => []
  | fuel + 1, l =>
    match l.dropWhile pyIsSpace with
    | [] => []
    | c :: cs =>
      ((c :: cs).takeWhile (fun a => !pyIsSpace a)) ::
        pySplitF fuel ((c :: cs).dropWhile (fun a => !pyIsSpace a))

/-- Python `str.split()`. -/
def pySplit (l : Str) : List Str := pySplitF l.length l

/-- Python `' '.join(tokens)`. -/
def joinSpace : List Str → Str
  | [] => []
  | [t] => t
  | t :: ts => t ++ ' ' :: joinSpace ts

/-- The whitespace-normalisation step `' '.join(text.split()).strip()`
of `_extract_single_comment` (crawler.py line 447). -/
def collapseWs (l : Str) : Str := pyStrip (joinSpace (pySplit l))

/-- The whole URL-removal / whitespace post-processing applied to a
non-empty comment body (crawler.py lines 442-447). -/
def cleanCommentText (l : Str) : Str :=
  collapseWs (stripWwwUrls (stripHttpUrls l))

/-- A position matches one of the URL patterns: the scheme matches here and
at least one URL-body character follows (`+` needs one). -/
def urlMatchAt (scheme : Str → Option Str) (l : Str) : Bool :=
  match scheme l with
  | some (d :: _) => urlBodyChar d
  | _ => false

/-- The string contains a substring matching the URL pattern, i.e. the
pattern matches at some position. -/
def containsUrlMatch (scheme : Str → Option Str) (l : Str) : Bool :=
  l.tails.any (urlMatchAt scheme)

/-- No two adjacent characters are both whitespace (the observable form of
"consecutive whitespace collapsed"). -/
def noAdjSpaces : Str → Bool
  | [] => true
  | [_] => true
  | a :: b :: t => !(pyIsSpace a && pyIsSpace b) && noAdjSpaces (b :: t)

/-- Python `str.replace(old, '')`: delete every (non-overlapping,
left-to-right) occurrence of `old`.  `old = ''` is the identity, as in
Python.  Fuel-structured recursion. -/
def pyRemoveAllF (old : Str) : Nat → Str → Str
  | 0, l => l
  | _ + 1, [] => []
  | fuel + 1, c :: cs =>
    if old ≠ [] ∧ old.isPrefixOf (c :: cs) then
      pyRemoveAllF old fuel ((c :: cs).drop old.length)
    else c :: pyRemoveAllF old fuel cs

/-- Python `s.replace(old, '')`. -/
def pyRemoveAll (old l : Str) : Str := pyRemoveAllF old l.length l

/-- First maximal digit run of a string, as a number: the value of group 1
of Python's `re.search(r'(\d+)', s)`, if any digit occurs. -/
def digitsToNat (l : Str) : Nat :=
  l.foldl (fun n c => n * 10 + (c.toNat - '0'.toNat)) 0

/-- `re.search(r'(\d+)', s)` followed by `int(...)` on the first match. -/
def firstNat (s : Str) : Option Nat :=
  match s.dropWhile (fun c => !c.isDigit) with
  | [] => none
  | c :: cs => some (digitsToNat ((c :: cs).takeWhile Char.isDigit))

/-- ASCII lowercasing, for the `re.IGNORECASE` searches. -/
def lowerStr (l : Str) : Str := l.map Char.toLower

/-- Unit tokens of the relative-time regex
`\d+\s*(m|h|d|j|w|hari|jam|menit|minggu|bulan|tahun|detik|s)`
(crawler.py line 478). -/
def timeUnitTokens : List Str :=
  ["m", "h", "d", "j", "w", "hari", "jam", "menit", "minggu", "bulan",
   "tahun", "detik", "s"].map String.toList

/-- The relative-time regex matches at this position: one or more digits,
then optional whitespace, then a unit token (case-insensitive).  Greedy
matching is equivalent to backtracking here because no unit token starts
with a digit or a whitespace character. -/
def relTimeAt : Str → Bool
  | [] => false
  | c :: cs =>
    c.isDigit &&
      (timeUnitTokens.any fun u =>
        u.isPrefixOf
          (lowerStr (((c :: cs).dropWhile Char.isDigit).dropWhile pyIsSpace)))

/-- `re.search` of the relative-time pattern: a match at some position. -/
def relTimeSearch (l : Str) : Bool := l.tails.any relTimeAt

/-- Literal alternatives of `re.search(r'just now|ago|yang lalu|baru saja',
text, re.IGNORECASE)` (crawler.py line 479). -/
def absTimeTokens : List Str :=
  ["just now", "ago", "yang lalu", "baru saja"].map String.toList

/-- Case-insensitive search for one of the absolute-time literals. -/
def absTimeSearch (l : Str) : Bool :=
  absTimeTokens.any fun p => (lowerStr l).tails.any fun t => p.isPrefixOf t

/-! ## Data model: what the extractor reads from the DOM -/

/-- Post-level metadata (`_extract_post_info` result), denormalised into
every comment record. -/
structure PostContext where
  post_url : Str
  post_author : Str
  post_content : Str
  post_timestamp : Str
deriving DecidableEq

/-- A link element, as read by the author extraction: its text content and
its `href` attribute (`get_attribute` may return null). -/
structure LinkElem where
  text : Str
  href : Option Str
deriving DecidableEq

/-- One candidate comment DOM node, modelled by the query results that
`_extract_single_comment` reads from it:
* `queryAuthor s` — `element.query_selector(s)` for the author selectors;
* `allLinks` — `element.query_selector_all('a')`;
* `dirAutoTexts` — text contents of
  `element.query_selector_all('div[dir="auto"], span[dir="auto"]')`;
* `fullText` — `element.text_content()`;
* `timeTexts` — text contents of `element.query_selector_all('a, span')`;
* `reactionLabels` — `aria-label` attributes of
  `element.query_selector_all('[aria-label*="eaction"]')`;
* `replyTexts` — text contents of the reply-count button query. -/
structure CommentElem where
  queryAuthor : Str → Option LinkElem
  allLinks : List LinkElem
  dirAutoTexts : List Str
  fullText : Str
  timeTexts : List Str
  reactionLabels : List (Option Str)
  replyTexts : List Str

/-- One extracted comment record (the dictionary built at crawler.py lines
512-523; `comment_id` is attached afterwards by `_extract_comments`). -/
structure CommentRecord where
  post_url : Str
  post_author : Str
  post_content : Str
  post_timestamp : Str
  comment_id : Str
  comment_author_name : Str
  comment_author_url : Str
  comment_text : Str
  comment_timestamp : Str
  parent_comment_id : Str
  likes_count : Nat
  replies_count : Nat
  crawled_at : Str
deriving DecidableEq

/-! ## Field extractor (`_extract_single_comment`) -/

/-- The ordered author selector chain (crawler.py lines 382-390). -/
def authorSelectors : List Str :=
  ["a[role=\"link\"]", "a[href*=\"/user/\"]", "a[href*=\"/profile\"]",
   "a[aria-label]", "span[dir=\"auto\"] a", "h4 a", "strong a"].map
    String.toList

/-- First pass of author extraction: walk the selector chain, take the
first selector whose match has non-empty stripped text (crawler.py lines
392-402). -/
def findAuthorBySelectors (q : Str → Option LinkElem) : List Str → Option (Str × Str)
  | [] => none
  | s :: rest =>
    match q s with
    | some link =>
      let t := pyStrip link.text
      if t ≠ [] then some (t, link.href.getD []) else findAuthorBySelectors q rest
    | none => findAuthorBySelectors q rest

/-- UI-action labels excluded by the fallback author scan
(crawler.py line 411). -/
def uiNoise4 : List Str := ["Like", "Reply", "Suka", "Balas"].map String.toList

/-- Fallback author extraction over all links of the node: first link whose
stripped text is non-empty, longer than 2 characters and not a UI-action
label (crawler.py lines 405-416). -/
def findAuthorInLinks : List LinkElem → Option (Str × Str)
  | [] => none
  | link :: rest =>
    let t := pyStrip link.text
    if t ≠ [] ∧ t.length > 2 ∧ t ∉ uiNoise4 then some (t, link.href.getD [])
    else findAuthorInLinks rest

/-- Complete author extraction: selector chain first, link scan as
fallback, `("", "")` when both fail. -/
def authorOf (e : CommentElem) : Str × Str :=
  match findAuthorBySelectors e.queryAuthor authorSelectors with
  | some p => p
  | none => (findAuthorInLinks e.allLinks).getD ([], [])

/-- Texts excluded by body-extraction strategy 1 (crawler.py line 428). -/
def bodyNoise (author : Str) : List Str :=
  author :: (["Like", "Reply", "Suka", "Balas", "Komentar", "Comment"].map
    String.toList)

/-- Body strategy 1: over all `dir="auto"` texts, keep the longest stripped
text of length > 5 that is not the author name or a UI label (crawler.py
lines 422-430). -/
def bodyScan (author : Str) : Str → List Str → Str
  | cur, [] => cur
  | cur, t :: ts =>
    let x := pyStrip t
    if x ≠ [] ∧ x.length > 5 ∧ x ∉ bodyNoise author ∧ x.length > cur.length then
      bodyScan author x ts
    else bodyScan author cur ts

/-- Noise substrings removed by body-extraction strategy 2
(crawler.py line 436). -/
def strat2Noise (author : Str) : List Str :=
  author :: (["Like", "Reply", "Suka", "Balas", "·", "Just now",
    "yang lalu"].map String.toList)

/-- Body strategy 2 (when strategy 1 found nothing): full node text with
the noise substrings deleted, then stripped (crawler.py lines 433-438). -/
def bodyFallback (author : Str) (fullText : Str) : Str :=
  pyStrip ((strat2Noise author).foldl (fun acc o => pyRemoveAll o acc)
    (pyStrip fullText))

/-- The comment body before URL removal. -/
def rawBodyOf (author : Str) (e : CommentElem) : Str :=
  let s1 := bodyScan author [] e.dirAutoTexts
  if s1 = [] then bodyFallback author e.fullText else s1

/-- The comment body after the URL-removal / whitespace post-processing,
which is applied only to a non-empty body (crawler.py lines 442-447). -/
def cleanBodyOf (author : Str) (e : CommentElem) : Str :=
  let raw := rawBodyOf author e
  if raw = [] then raw else cleanCommentText raw

/-- Timestamp selection (crawler.py lines 464-481): first stripped
`a`/`span` text of length ≤ 50 that differs from the author name and the
body and matches one of the time patterns; empty string if none. -/
def findTimestamp (author body : Str) : List Str → Str
  | [] => []
  | t :: ts =>
    let x := pyStrip t
    if x.length > 50 then findTimestamp author body ts
    else if x = author || x = body then findTimestamp author body ts
    else if relTimeSearch x || absTimeSearch x then x
    else findTimestamp author body ts

/-- Likes extraction (crawler.py lines 486-497): first reaction
`aria-label` containing a digit run. -/
def findLikes : List (Option Str) → Nat
  | [] => 0
  | lab :: rest =>
    match firstNat (lab.getD []) with
    | some n => n
    | none => findLikes rest

/-- Replies extraction (crawler.py lines 500-510). -/
def findReplies : List Str → Nat
  | [] => 0
  | t :: rest =>
    match firstNat t with
    | some n => n
    | none => findReplies rest

/-- `_extract_single_comment` (crawler.py lines 370-530): returns a record
or `none` ("not a comment").  `now` stands for `datetime.now().isoformat()`.
Exceptions cannot arise in this pure DOM model (the per-selector
`try/except continue` wrappers of the source are dead paths here). -/
def extractSingleComment (now : Str) (e : CommentElem) (pi : PostContext) :
    Option CommentRecord :=
  let a := authorOf e
  let body := cleanBodyOf a.1 e
  if a.1 = [] ∧ body = [] then none
  else
    let authorName := if a.1 = [] then "Unknown User".toList else a.1
    if body.length < 2 then none
    else
      some
        { post_url := pi.post_url
          post_author := pi.post_author
          post_content := pi.post_content
          post_timestamp := pi.post_timestamp
          comment_id := []
          comment_author_name := authorName
          comment_author_url := a.2
          comment_text := body
          comment_timestamp := findTimestamp authorName body e.timeTexts
          parent_comment_id := []
          likes_count := findLikes e.reactionLabels
          replies_count := findReplies e.replyTexts
          crawled_at := now }

/-! ## Post context (`_extract_post_info`) -/

/-- The post page, modelled by the query results `_extract_post_info`
reads: `qOne s` is the text content of `page.query_selector(s)` (if any),
`qAllTexts s` the text contents of `page.query_selector_all(s)`. -/
structure PostPage where
  url : Str
  qOne : Str → Option Str
  qAllTexts : Str → List Str

/-- Post author selector chain (crawler.py lines 69-74). -/
def postAuthorSelectors : List Str :=
  ["h2 a", "h3 a", "[data-ad-preview=\"message\"] a", "a[role=\"link\"]"].map
    String.toList

/-- Post content selector chain (crawler.py lines 84-88). -/
def contentSelectors : List Str :=
  ["[data-ad-preview=\"message\"]", "div[data-ad-comet-preview=\"message\"]",
   "[dir=\"auto\"]"].map String.toList

/-- Post author loop (crawler.py lines 76-81): each selector with a match
assigns the stripped text to the running value; the loop breaks on the
first non-empty assignment. -/
def postAuthorLoop (q : Str → Option Str) : Str → List Str → Str
  | cur, [] => cur
  | cur, s :: rest =>
    match q s with
    | some t =>
      let a := pyStrip t
      if a ≠ [] then a else postAuthorLoop q a rest
    | none => postAuthorLoop q cur rest

/-- Inner content loop over one selector's matches (crawler.py lines
92-96): the first stripped text that is non-empty and longer than the
current value is assigned, and the loop immediately breaks. -/
def contentInner : Str → List Str → Str
  | cur, [] => cur
  | cur, t :: ts =>
    let x := pyStrip t
    if x ≠ [] ∧ x.length > cur.length then x else contentInner cur ts

/-- Outer content loop (crawler.py lines 90-98): stop at the first
selector that leaves a non-empty current value. -/
def contentOuter (q : Str → List Str) : Str → List Str → Str
  | cur, [] => cur
  | cur, s :: ss =>
    let cur2 := contentInner cur (q s)
    if cur2 ≠ [] then cur2 else contentOuter q cur2 ss

/-- The extracted post content before truncation. -/
def postContentRaw (p : PostPage) : Str := contentOuter p.qAllTexts [] contentSelectors

/-- Content length limiting (crawler.py lines 100-102). -/
def truncateContent (s : Str) : Str :=
  if s.length > 500 then s.take 500 ++ "...".toList else s

/-- `_extract_post_info` (crawler.py lines 58-109).  `post_timestamp` is
initialised to the empty string and never assigned. -/
def extractPostInfo (p : PostPage) : PostContext :=
  { post_url := p.url
    post_author := postAuthorLoop p.qOne [] postAuthorSelectors
    post_content := truncateContent (postContentRaw p)
    post_timestamp := [] }

/-- All candidate content texts of the selector chain, in chain order. -/
def contentCandidates (p : PostPage) : List Str :=
  (contentSelectors.map p.qAllTexts).flatten

/-! ## Comment discovery and `_extract_comments` -/

/-- Discovery selector chain (crawler.py lines 331-339). -/
def commentSelectors : List Str :=
  ["div[aria-label*=\"Comment by\"]", "div[aria-label*=\"Komentar oleh\"]",
   "div[role=\"article\"] div[dir=\"auto\"]", "[role=\"article\"]"].map
    String.toList

/-- Discovery loop (crawler.py lines 341-347): first selector with any
matches wins; the initial empty list survives if none matches. -/
def discoverLoop {α : Type} (qAll : Str → List α) : List α → List Str → List α
  | cur, [] => cur
  | cur, s :: ss =>
    let els := qAll s
    if !els.isEmpty then els else discoverLoop qAll cur ss

/-- Comment discovery for the current page state. -/
def discoverComments {α : Type} (qAll : Str → List α) : List α :=
  discoverLoop qAll [] commentSelectors

/-- `comment_id` attached at crawler.py line 359. -/
def commentIdStr (i : Nat) : Str := "comment_".toList ++ (Nat.repr i).toList

/-- `_extract_comments` (crawler.py lines 320-368): discover candidate
nodes, run the field extractor on each, attach ordinal ids (indexed by
candidate position, including dropped candidates). -/
def extractComments (now : Str) (qAll : Str → List CommentElem)
    (pi : PostContext) : List CommentRecord :=
  (discoverComments qAll).enum.filterMap fun p =>
    (extractSingleComment now p.2 pi).map fun r =>
      { r with comment_id := commentIdStr p.1 }

/-! ## Convergence loop (`_expand_all_comments`) -/

/-- Python truthiness of the `max_comments` option (`if max_comments:`,
crawler.py line 168): `None` and `0` are falsy. -/
def truthyNat : Option Nat → Bool
  | none => false
  | some 0 => false
  | some (_ + 1) => true

/-- One execution of the scroll loop (crawler.py lines 154-177), returning
the number of scroll iterations performed.  `env i` provides, for the
iteration with `scroll_attempts = i` before the increment, the outcome of
`_click_view_more_buttons()` and the value of
`_count_visible_comments()`.  The counter is consulted only when
`max_comments` is truthy, matching the source.  The fuel argument equals
the remaining budget, making the recursion structural. -/
def scrollLoopF (env : Nat → Bool × Nat) (maxC : Option Nat)
    (maxScrolls : Nat) : Nat → Nat → Nat
  | 0, attempts => attempts
  | fuel + 1, attempts =>
    if attempts < maxScrolls then
      let clicked := (env attempts).1
      let a := attempts + 1
      if truthyNat maxC ∧ (env attempts).2 ≥ maxC.getD 0 then a
      else if !clicked ∧ a > 5 then a
      else scrollLoopF env maxC maxScrolls fuel a
    else attempts

/-- Scroll iterations performed by `_expand_all_comments`. -/
def scrollIterations (env : Nat → Bool × Nat) (maxC : Option Nat)
    (maxScrolls : Nat) : Nat :=
  scrollLoopF env maxC maxScrolls maxScrolls 0

/-- The stop condition checked after the `i`-th scroll iteration
(`i ≥ 1`): target count reached, or nothing clicked and more than 5
iterations elapsed. -/
def stopCond (env : Nat → Bool × Nat) (maxC : Option Nat) (i : Nat) : Bool :=
  (truthyNat maxC && decide ((env (i - 1)).2 ≥ maxC.getD 0)) ||
  (!(env (i - 1)).1 && decide (i > 5))

/-! ## `crawl_post_comments` and the per-post loop of `main` -/

/-- The environment of one `crawl_post_comments` call.  Navigation
(`page.goto`) is the one operation inside the `try` block that can raise
(the other steps swallow their exceptions internally); its outcome is an
explicit `Except` value. -/
structure CrawlEnv where
  gotoResult : Except Str Unit
  page : PostPage
  scrollEnv : Nat → Bool × Nat
  qAll : Str → List CommentElem

/-- `crawl_post_comments` (crawler.py lines 20-56): on a navigation
exception the `except` clause returns `[]`; otherwise post info is
extracted, the convergence loop runs (its iteration count is its only
observable), and the comments are extracted. -/
def crawlPostComments (maxScrolls : Nat) (now : Str) (env : CrawlEnv)
    (maxC : Option Nat) : List CommentRecord :=
  match env.gotoResult with
  | Except.error _ => []
  | Except.ok _ =>
    let pi := extractPostInfo env.page
    let _iters := scrollIterations env.scrollEnv maxC maxScrolls
    extractComments now env.qAll pi

/-- The per-post iteration of `main` (main.py lines 209-232): every post
is processed, each through `crawl_post_comments`. -/
def crawlAllPosts (maxScrolls : Nat) (now : Str) (maxC : Option Nat)
    (envs : List CrawlEnv) : List (List CommentRecord) :=
  envs.map fun e => crawlPostComments maxScrolls now e maxC

/-- The timestamp acceptance predicate implicit in the selection loop:
length at most 50, different from the author name and the body, and
matching one of the time patterns. -/
def tsGood (author body : Str) (x : Str) : Bool :=
  decide (x.length ≤ 50) && !(x == author) && !(x == body) &&
    (relTimeSearch x || absTimeSearch x)

/-! ## Concrete inputs for witnesses and counterexamples -/

/-- An empty post context. -/
def ctx0 : PostContext :=
  { post_url := []
    post_author := []
    post_content := []
    post_timestamp := [] }

/-- A node whose only text is the UI-action label `Like`. -/
def elemLike : CommentElem :=
  { queryAuthor := fun _ => none
    allLinks := []
    dirAutoTexts := ["Like".toList]
    fullText := "Like".toList
    timeTexts := []
    reactionLabels := []
    replyTexts := [] }

/-- A node with no author link but body text `Nice post!!`. -/
def elemNoAuthor : CommentElem :=
  { queryAuthor := fun _ => none
    allLinks := []
    dirAutoTexts := ["Nice post!!".toList]
    fullText := "Nice post!!".toList
    timeTexts := []
    reactionLabels := []
    replyTexts := [] }

/-- A node with an author link and a body containing an HTTP URL. -/
def elemUrlBody : CommentElem :=
  { queryAuthor := fun s =>
      if s = "a[role=\"link\"]".toList then
        some { text := "Alice".toList, href := some "/alice".toList }
      else none
    allLinks := []
    dirAutoTexts := ["Check this out http://example.com/x?y=1 thanks".toList]
    fullText := "Check this out http://example.com/x?y=1 thanks".toList
    timeTexts := ["5m".toList]
    reactionLabels := []
    replyTexts := [] }

/-- A node holding both an aria-labeled author link and a nested
author-styled link (matched by the `h4 a` selector), and nothing for the
three selectors that precede `a[aria-label]` in the chain. -/
def elemAriaVsNested : CommentElem :=
  { queryAuthor := fun s =>
      if s = "a[aria-label]".toList then
        some { text := "Aria Author".toList, href := some "/aria".toList }
      else if s = "h4 a".toList then
        some { text := "Nested Author".toList, href := some "/nested".toList }
      else none
    allLinks := [{ text := "Nested Author".toList, href := some "/nested".toList }]
    dirAutoTexts := ["A sufficiently long body".toList]
    fullText := "A sufficiently long body".toList
    timeTexts := []
    reactionLabels := []
    replyTexts := [] }

/-- A page where the first content selector yields a short non-empty text
before a longer one. -/
def pageShortFirst : PostPage :=
  { url := "u".toList
    qOne := fun _ => none
    qAllTexts := fun s =>
      if s = "[data-ad-preview=\"message\"]".toList then
        ["ab".toList, "abcd".toList]
      else [] }

/-- A page whose only content candidate has 600 characters. -/
def pageContent600 : PostPage :=
  { url := "u".toList
    qOne := fun _ => none
    qAllTexts := fun s =>
      if s = "[data-ad-preview=\"message\"]".toList then
        [List.replicate 600 'a']
      else [] }

/-- A page whose only content candidate has 400 characters. -/
def pageContent400 : PostPage :=
  { url := "u".toList
    qOne := fun _ => none
    qAllTexts := fun s =>
      if s = "[data-ad-preview=\"message\"]".toList then
        [List.replicate 400 'a']
      else [] }

/-- The record extracted from `elemUrlBody` under an empty post context. -/
def recUrlBody : CommentRecord :=
  { post_url := []
    post_author := []
    post_content := []
    post_timestamp := []
    comment_id := []
    comment_author_name := "Alice".toList
    comment_author_url := "/alice".toList
    comment_text := "Check this out thanks".toList
    comment_timestamp := "5m".toList
    parent_comment_id := []
    likes_count := 0
    replies_count := 0
    crawled_at := [] }

/-- The record extracted from `elemNoAuthor` under an empty post context. -/
def recNoAuthor : CommentRecord :=
  { post_url := []
    post_author := []
    post_content := []
    post_timestamp := []
    comment_id := []
    comment_author_name := "Unknown User".toList
    comment_author_url := []
    comment_text := "Nice post!!".toList
    comment_timestamp := []
    parent_comment_id := []
    likes_count := 0
    replies_count := 0
    crawled_at := [] }

/-- A crawl environment whose navigation fails. -/
def envGotoFails : CrawlEnv :=
  { gotoResult := Except.error "Timeout".toList
    page := pageShortFirst
    scrollEnv := fun _ => (false, 0)
    qAll := fun _ => [] }







/-! ## Helper lemmas -/

theorem dropWhile_head_false {α : Type} {p : α → Bool} :
    ∀ {l : List α} {c : α} {cs : List α}, l.dropWhile p = c :: cs → p c = false := by
  intro l
  induction l with
  | nil => intro c cs h; simp [List.dropWhile] at h
  | cons a t ih =>
    intro c cs h
    rw [List.dropWhile_cons] at h
    by_cases hp : p a
    · rw [if_pos hp] at h; exact ih h
    · rw [if_neg hp] at h
      cases h
      simpa using hp

theorem pyIsSpace_not_url {c : Char} (h : pyIsSpace c = true) :
    urlBodyChar c = false := by
  simp only [pyIsSpace, Bool.or_eq_true, decide_eq_true_eq] at h
  rcases h with ((((rfl | rfl) | rfl) | rfl) | rfl) | rfl <;> decide

theorem httpSchemeAfter_eq {l r : Str} :
    httpSchemeAfter l = some r ↔
      l = 'h' :: 't' :: 't' :: 'p' :: 's' :: ':' :: '/' :: '/' :: r ∨
      l = 'h' :: 't' :: 't' :: 'p' :: ':' :: '/' :: '/' :: r := by
  constructor
  · intro h
    unfold httpSchemeAfter at h
    split at h <;> simp_all
  · rintro (rfl | rfl) <;> rfl

theorem wwwSchemeAfter_eq {l r : Str} :
    wwwSchemeAfter l = some r ↔ l = 'w' :: 'w' :: 'w' :: '.' :: r := by
  constructor
  · intro h
    unfold wwwSchemeAfter at h
    split at h <;> simp_all
  · rintro rfl; rfl

theorem httpScheme_shrink {l r : Str} (h : httpSchemeAfter l = some r) :
    r.length < l.length := by
  rcases httpSchemeAfter_eq.mp h with rfl | rfl <;> simp <;> omega

theorem wwwScheme_shrink {l r : Str} (h : wwwSchemeAfter l = some r) :
    r.length < l.length := by
  rcases wwwSchemeAfter_eq.mp h with rfl; simp; omega

theorem httpScheme_decomp {l r : Str} (h : httpSchemeAfter l = some r) :
    ∃ p, l = p ++ r ∧ p ≠ [] ∧ ∀ c ∈ p, urlBodyChar c = true := by
  rcases httpSchemeAfter_eq.mp h with rfl | rfl
  · exact ⟨['h', 't', 't', 'p', 's', ':', '/', '/'], rfl, by simp, by decide⟩
  · exact ⟨['h', 't', 't', 'p', ':', '/', '/'], rfl, by simp, by decide⟩

theorem wwwScheme_decomp {l r : Str} (h : wwwSchemeAfter l = some r) :
    ∃ p, l = p ++ r ∧ p ≠ [] ∧ ∀ c ∈ p, urlBodyChar c = true := by
  rcases wwwSchemeAfter_eq.mp h with rfl
  exact ⟨['w', 'w', 'w', '.'], rfl, by simp, by decide⟩

theorem httpScheme_ext {p t t' : Str} (h : httpSchemeAfter (p ++ t) = some t) :
    httpSchemeAfter (p ++ t') = some t' := by
  rcases httpSchemeAfter_eq.mp h with h' | h'
  · have hp : p = ['h', 't', 't', 'p', 's', ':', '/', '/'] :=
      List.append_cancel_right (by simpa using h')
    subst hp; rfl
  · have hp : p = ['h', 't', 't', 'p', ':', '/', '/'] :=
      List.append_cancel_right (by simpa using h')
    subst hp; rfl

theorem wwwScheme_ext {p t t' : Str} (h : wwwSchemeAfter (p ++ t) = some t) :
    wwwSchemeAfter (p ++ t') = some t' := by
  rcases wwwSchemeAfter_eq.mp h with h'
  have hp : p = ['w', 'w', 'w', '.'] :=
    List.append_cancel_right (by simpa using h')
  subst hp; rfl

theorem reSubDelete_fuel_irrel (f : Str → Option Str)
    (hf : ∀ l r, f l = some r → r.length < l.length) :
    ∀ n l fuel₁ fuel₂, l.length ≤ n → l.length ≤ fuel₁ → l.length ≤ fuel₂ →
      reSubDelete f fuel₁ l = reSubDelete f fuel₂ l := by
  intro n
  induction n with
  | zero =>
    intro l fuel₁ fuel₂ hn _ _
    have hl : l = [] := List.eq_nil_of_length_eq_zero (Nat.le_zero.mp hn)
    subst hl
    cases fuel₁ <;> cases fuel₂ <;> rfl
  | succ n ih =>
    intro l fuel₁ fuel₂ hn h1 h2
    cases l with
    | nil => cases fuel₁ <;> cases fuel₂ <;> rfl
    | cons c cs =>
      simp only [List.length_cons] at hn h1 h2
      cases fuel₁ with
      | zero => omega
      | succ a =>
        cases fuel₂ with
        | zero => omega
        | succ b =>
          simp only [reSubDelete]
          cases hfc : f (c :: cs) with
          | none =>
            simp only []
            exact congrArg (c :: ·) (ih cs a b (by omega) (by omega) (by omega))
          | some rest =>
            have hrl : rest.length < cs.length + 1 := hf _ _ hfc
            by_cases hemp : (rest.takeWhile urlBodyChar).isEmpty
            · simp only [hemp, if_pos]
              exact congrArg (c :: ·) (ih cs a b (by omega) (by omega) (by omega))
            · simp only [hemp, if_neg, Bool.false_eq_true, not_false_eq_true]
              have hd : (rest.dropWhile urlBodyChar).length ≤ rest.length :=
                (List.dropWhile_suffix urlBodyChar).length_le
              exact ih (rest.dropWhile urlBodyChar) a b (by omega) (by omega)
                (by omega)

theorem reSubDel_nil (f : Str → Option Str) : reSubDel f [] = [] := rfl

theorem reSubDel_keep (f : Str → Option Str) {c : Char} {cs : Str}
    (h : f (c :: cs) = none) : reSubDel f (c :: cs) = c :: reSubDel f cs := by
  unfold reSubDel
  simp only [List.length_cons, reSubDelete, h]

theorem reSubDel_empty_run (f : Str → Option Str) {c : Char} {cs rest : Str}
    (h : f (c :: cs) = some rest)
    (he : (rest.takeWhile urlBodyChar).isEmpty = true) :
    reSubDel f (c :: cs) = c :: reSubDel f cs := by
  unfold reSubDel
  simp only [List.length_cons, reSubDelete, h, he, if_pos]

theorem reSubDel_remove (f : Str → Option Str)
    (hf : ∀ l r, f l = some r → r.length < l.length) {c : Char} {cs rest : Str}
    (h : f (c :: cs) = some rest)
    (he : (rest.takeWhile urlBodyChar).isEmpty = false) :
    reSubDel f (c :: cs) = reSubDel f (rest.dropWhile urlBodyChar) := by
  have hrl : rest.length < cs.length + 1 := hf _ _ h
  have hd : (rest.dropWhile urlBodyChar).length ≤ rest.length :=
    (List.dropWhile_suffix urlBodyChar).length_le
  unfold reSubDel
  simp only [List.length_cons, reSubDelete, h, he, Bool.false_eq_true,
    if_neg, not_false_eq_true]
  exact reSubDelete_fuel_irrel f hf cs.length _ cs.length
    (rest.dropWhile urlBodyChar).length (by omega) (by omega) (by omega)

theorem containsUrlMatch_cons (f : Str → Option Str) (c : Char) (cs : Str) :
    containsUrlMatch f (c :: cs) =
      (urlMatchAt f (c :: cs) || containsUrlMatch f cs) := by
  simp [containsUrlMatch, List.tails_cons]

theorem containsUrlMatch_nil (f : Str → Option Str)
    (hf : ∀ l r, f l = some r → r.length < l.length) :
    containsUrlMatch f [] = false := by
  have hfn : f [] = none := by
    cases hc : f [] with
    | none => rfl
    | some r => exact absurd (hf _ _ hc) (by simp)
  simp [containsUrlMatch, List.tails, urlMatchAt, hfn]

theorem containsUrlMatch_of_suffix (f : Str → Option Str) {s l : Str}
    (hs : s <:+ l) (h : containsUrlMatch f s = true) :
    containsUrlMatch f l = true := by
  rw [containsUrlMatch, List.any_eq_true] at h ⊢
  obtain ⟨t, ht, hm⟩ := h
  exact ⟨t, (List.mem_tails t l).mpr (((List.mem_tails t s).mp ht).trans hs), hm⟩

theorem urlMatchAt_contains (f : Str → Option Str) {l : Str}
    (h : urlMatchAt f l = true) : containsUrlMatch f l = true := by
  rw [containsUrlMatch, List.any_eq_true]
  exact ⟨l, (List.mem_tails l l).mpr (List.suffix_refl l), h⟩

theorem reSubDel_urlPrefix (f : Str → Option Str)
    (hf : ∀ l r, f l = some r → r.length < l.length) :
    ∀ n l p, l.length ≤ n → (∀ c ∈ p, urlBodyChar c = true) →
      p <+: reSubDel f l → p <+: l := by
  intro n
  induction n with
  | zero =>
    intro l p hn _ hp
    have hl : l = [] := List.eq_nil_of_length_eq_zero (Nat.le_zero.mp hn)
    subst hl
    simpa [reSubDel_nil] using hp
  | succ n ih =>
    intro l p hn hurl hp
    cases l with
    | nil => simpa [reSubDel_nil] using hp
    | cons c cs =>
      simp only [List.length_cons] at hn
      cases hfc : f (c :: cs) with
      | none =>
        rw [reSubDel_keep f hfc] at hp
        cases p with
        | nil => exact List.nil_prefix
        | cons d p' =>
          rw [List.cons_prefix_cons] at hp ⊢
          obtain ⟨rfl, hp'⟩ := hp
          exact ⟨rfl, ih cs p' (by omega)
            (fun x hx => hurl x (List.mem_cons_of_mem _ hx)) hp'⟩
      | some rest =>
        by_cases hemp : (rest.takeWhile urlBodyChar).isEmpty
        · rw [reSubDel_empty_run f hfc hemp] at hp
          cases p with
          | nil => exact List.nil_prefix
          | cons d p' =>
            rw [List.cons_prefix_cons] at hp ⊢
            obtain ⟨rfl, hp'⟩ := hp
            exact ⟨rfl, ih cs p' (by omega)
              (fun x hx => hurl x (List.mem_cons_of_mem _ hx)) hp'⟩
        · rw [reSubDel_remove f hf hfc (by simpa using hemp)] at hp
          have hrl : rest.length < cs.length + 1 := hf _ _ hfc
          have hd : (rest.dropWhile urlBodyChar).length ≤ rest.length :=
            (List.dropWhile_suffix urlBodyChar).length_le
          have hp2 : p <+: rest.dropWhile urlBodyChar :=
            ih (rest.dropWhile urlBodyChar) p (by omega) hurl hp
          cases p with
          | nil => exact List.nil_prefix
          | cons d p' =>
            obtain ⟨t, ht⟩ := hp2
            have hdw : urlBodyChar d = false :=
              dropWhile_head_false ht.symm
            have : urlBodyChar d = true := hurl d (List.mem_cons_self d p')
            rw [hdw] at this
            exact absurd this (by simp)

theorem urlMatchAt_elim {f : Str → Option Str} {l : Str}
    (h : urlMatchAt f l = true) :
    ∃ d r, f l = some (d :: r) ∧ urlBodyChar d = true := by
  unfold urlMatchAt at h
  cases hfl : f l with
  | none => rw [hfl] at h; simp at h
  | some v =>
    cases v with
    | nil => rw [hfl] at h; simp at h
    | cons d r => rw [hfl] at h; exact ⟨d, r, rfl, h⟩

theorem reSubDel_head_match_pullback (f : Str → Option Str)
    (hf : ∀ l r, f l = some r → r.length < l.length)
    (g : Str → Option Str)
    (hgP : ∀ l r, g l = some r → ∃ p, l = p ++ r ∧ p ≠ [] ∧
      ∀ c ∈ p, urlBodyChar c = true)
    (hgQ : ∀ p t t', g (p ++ t) = some t → g (p ++ t') = some t')
    {c : Char} {cs : Str}
    (hm : urlMatchAt g (c :: reSubDel f cs) = true) :
    urlMatchAt g (c :: cs) = true := by
  obtain ⟨d, r, hg, hd⟩ := urlMatchAt_elim hm
  obtain ⟨p, hpe, hpne, hpurl⟩ := hgP _ _ hg
  have hpre : (p ++ [d]) <+: c :: reSubDel f cs := by
    rw [hpe]
    have he : p ++ d :: r = (p ++ [d]) ++ r := by simp
    rw [he]
    exact List.prefix_append _ _
  have hpurl' : ∀ x ∈ p ++ [d], urlBodyChar x = true := by
    intro x hx
    rcases List.mem_append.mp hx with hx | hx
    · exact hpurl x hx
    · rw [List.mem_singleton.mp hx]; exact hd
  have hpre2 : (p ++ [d]) <+: c :: cs := by
    cases p with
    | nil => exact absurd rfl hpne
    | cons e p2 =>
      rw [List.cons_append, List.cons_prefix_cons] at hpre
      obtain ⟨rfl, hpre'⟩ := hpre
      rw [List.cons_append, List.cons_prefix_cons]
      refine ⟨rfl, ?_⟩
      exact reSubDel_urlPrefix f hf cs.length cs (p2 ++ [d]) le_rfl
        (fun x hx => hpurl' x (by
          rw [List.cons_append]
          exact List.mem_cons_of_mem _ hx)) hpre'
  obtain ⟨t, ht⟩ := hpre2
  have hgq : g (p ++ (d :: t)) = some (d :: t) := by
    apply hgQ p (d :: r) (d :: t)
    rw [← hpe]; exact hg
  have hcc : c :: cs = p ++ (d :: t) := by
    rw [← ht, List.append_assoc]; rfl
  unfold urlMatchAt
  rw [hcc, hgq]
  exact hd

theorem reSubDel_no_self_match (f : Str → Option Str)
    (hf : ∀ l r, f l = some r → r.length < l.length)
    (hfP : ∀ l r, f l = some r → ∃ p, l = p ++ r ∧ p ≠ [] ∧
      ∀ c ∈ p, urlBodyChar c = true)
    (hfQ : ∀ p t t', f (p ++ t) = some t → f (p ++ t') = some t') :
    ∀ n l, l.length ≤ n → containsUrlMatch f (reSubDel f l) = false := by
  intro n
  induction n with
  | zero =>
    intro l hn
    have hl : l = [] := List.eq_nil_of_length_eq_zero (Nat.le_zero.mp hn)
    subst hl
    rw [reSubDel_nil]
    exact containsUrlMatch_nil f hf
  | succ n ih =>
    intro l hn
    cases l with
    | nil => rw [reSubDel_nil]; exact containsUrlMatch_nil f hf
    | cons c cs =>
      simp only [List.length_cons] at hn
      cases hfc : f (c :: cs) with
      | none =>
        rw [reSubDel_keep f hfc, containsUrlMatch_cons]
        have h1 : urlMatchAt f (c :: reSubDel f cs) = false := by
          by_contra hx
          have hx' : urlMatchAt f (c :: reSubDel f cs) = true := by
            revert hx; cases urlMatchAt f (c :: reSubDel f cs) <;> simp
          have := reSubDel_head_match_pullback f hf f hfP hfQ hx'
          obtain ⟨d, r, hg, _⟩ := urlMatchAt_elim this
          rw [hfc] at hg; exact Option.noConfusion hg
        rw [h1, ih cs (by omega)]
        rfl
      | some rest =>
        by_cases hemp : (rest.takeWhile urlBodyChar).isEmpty
        · rw [reSubDel_empty_run f hfc hemp, containsUrlMatch_cons]
          have h1 : urlMatchAt f (c :: reSubDel f cs) = false := by
            by_contra hx
            have hx' : urlMatchAt f (c :: reSubDel f cs) = true := by
              revert hx; cases urlMatchAt f (c :: reSubDel f cs) <;> simp
            have hm2 := reSubDel_head_match_pullback f hf f hfP hfQ hx'
            obtain ⟨d, r, hg, hd⟩ := urlMatchAt_elim hm2
            rw [hfc] at hg
            have : rest = d :: r := Option.some.inj hg
            subst this
            rw [List.takeWhile_cons_of_pos (by simpa using hd)] at hemp
            simp at hemp
          rw [h1, ih cs (by omega)]
          rfl
        · rw [reSubDel_remove f hf hfc (by simpa using hemp)]
          have hrl : rest.length < cs.length + 1 := hf _ _ hfc
          have hd : (rest.dropWhile urlBodyChar).length ≤ rest.length :=
            (List.dropWhile_suffix urlBodyChar).length_le
          exact ih (rest.dropWhile urlBodyChar) (by omega)

theorem reSubDel_transfer (f : Str → Option Str)
    (hf : ∀ l r, f l = some r → r.length < l.length)
    (hfP : ∀ l r, f l = some r → ∃ p, l = p ++ r ∧ p ≠ [] ∧
      ∀ c ∈ p, urlBodyChar c = true)
    (g : Str → Option Str)
    (hgP : ∀ l r, g l = some r → ∃ p, l = p ++ r ∧ p ≠ [] ∧
      ∀ c ∈ p, urlBodyChar c = true)
    (hgQ : ∀ p t t', g (p ++ t) = some t → g (p ++ t') = some t') :
    ∀ n l, l.length ≤ n → containsUrlMatch g (reSubDel f l) = true →
      containsUrlMatch g l = true := by
  intro n
  induction n with
  | zero =>
    intro l hn h
    have hl : l = [] := List.eq_nil_of_length_eq_zero (Nat.le_zero.mp hn)
    subst hl
    simpa [reSubDel_nil] using h
  | succ n ih =>
    intro l hn h
    cases l with
    | nil => simpa [reSubDel_nil] using h
    | cons c cs =>
      simp only [List.length_cons] at hn
      have htail : containsUrlMatch g cs = true → containsUrlMatch g (c :: cs) = true := by
        intro hx
        rw [containsUrlMatch_cons, hx]
        simp
      cases hfc : f (c :: cs) with
      | none =>
        rw [reSubDel_keep f hfc, containsUrlMatch_cons, Bool.or_eq_true] at h
        rcases h with h | h
        · have := reSubDel_head_match_pullback f hf g hgP hgQ h
          exact urlMatchAt_contains g this
        · exact htail (ih cs (by omega) h)
      | some rest =>
        by_cases hemp : (rest.takeWhile urlBodyChar).isEmpty
        · rw [reSubDel_empty_run f hfc hemp, containsUrlMatch_cons,
            Bool.or_eq_true] at h
          rcases h with h | h
          · have := reSubDel_head_match_pullback f hf g hgP hgQ h
            exact urlMatchAt_contains g this
          · exact htail (ih cs (by omega) h)
        · rw [reSubDel_remove f hf hfc (by simpa using hemp)] at h
          have hrl : rest.length < cs.length + 1 := hf _ _ hfc
          have hd : (rest.dropWhile urlBodyChar).length ≤ rest.length :=
            (List.dropWhile_suffix urlBodyChar).length_le
          have h2 : containsUrlMatch g (rest.dropWhile urlBodyChar) = true :=
            ih (rest.dropWhile urlBodyChar) (by omega) h
          obtain ⟨p, hpe, _, _⟩ := hfP _ _ hfc
          have hsuf : (rest.dropWhile urlBodyChar) <:+ c :: cs := by
            rw [hpe]
            exact (List.dropWhile_suffix urlBodyChar).trans
              (List.suffix_append p rest)
          exact containsUrlMatch_of_suffix g hsuf h2

theorem pySplitF_nil : ∀ fuel, pySplitF fuel [] = [] := by
  intro fuel; cases fuel <;> rfl

theorem splitStep_length {l : Str} {c : Char} {cs : Str}
    (h : l.dropWhile pyIsSpace = c :: cs) :
    ((c :: cs).dropWhile (fun a => !pyIsSpace a)).length < l.length := by
  have h1 : pyIsSpace c = false := dropWhile_head_false h
  have hsuf : l.dropWhile pyIsSpace <:+ l := List.dropWhile_suffix pyIsSpace
  rw [h] at hsuf
  have h2 : (c :: cs).length ≤ l.length := hsuf.length_le
  have h4 := List.takeWhile_append_dropWhile (fun a => !pyIsSpace a) (c :: cs)
  have h5 : ((c :: cs).takeWhile (fun a => !pyIsSpace a)).length +
      ((c :: cs).dropWhile (fun a => !pyIsSpace a)).length = cs.length + 1 := by
    have h7 := congrArg List.length h4
    rw [List.length_append, List.length_cons] at h7
    exact h7
  have h6 : (c :: cs).takeWhile (fun a => !pyIsSpace a) =
      c :: cs.takeWhile (fun a => !pyIsSpace a) :=
    List.takeWhile_cons_of_pos (by simp [h1])
  rw [h6] at h5
  simp only [List.length_cons] at h5 h2
  omega

theorem pySplitF_fuel_irrel :
    ∀ n l fuel₁ fuel₂, l.length ≤ n → l.length ≤ fuel₁ → l.length ≤ fuel₂ →
      pySplitF fuel₁ l = pySplitF fuel₂ l := by
  intro n
  induction n with
  | zero =>
    intro l fuel₁ fuel₂ hn _ _
    have hl : l = [] := List.eq_nil_of_length_eq_zero (Nat.le_zero.mp hn)
    subst hl
    rw [pySplitF_nil, pySplitF_nil]
  | succ n ih =>
    intro l fuel₁ fuel₂ hn h1 h2
    cases l with
    | nil => rw [pySplitF_nil, pySplitF_nil]
    | cons a t =>
      simp only [List.length_cons] at hn h1 h2
      cases fuel₁ with
      | zero => omega
      | succ b =>
        cases fuel₂ with
        | zero => omega
        | succ d =>
          simp only [pySplitF]
          cases hd : (a :: t).dropWhile pyIsSpace with
          | nil => rfl
          | cons c cs =>
            have hlt := splitStep_length hd
            simp only [List.length_cons] at hlt
            exact congrArg _ (ih _ b d (by omega) (by omega) (by omega))

theorem pySplit_nil_of {l : Str} (h : l.dropWhile pyIsSpace = []) :
    pySplit l = [] := by
  unfold pySplit
  cases hl : l.length with
  | zero => rfl
  | succ k => simp only [pySplitF, h]

theorem pySplit_cons_of {l : Str} {c : Char} {cs : Str}
    (h : l.dropWhile pyIsSpace = c :: cs) :
    pySplit l = ((c :: cs).takeWhile (fun a => !pyIsSpace a)) ::
      pySplit ((c :: cs).dropWhile (fun a => !pyIsSpace a)) := by
  have hlt := splitStep_length h
  unfold pySplit
  cases hl : l.length with
  | zero =>
    have : l = [] := List.eq_nil_of_length_eq_zero hl
    subst this
    simp at h
  | succ k =>
    simp only [pySplitF, h]
    congr 1
    exact pySplitF_fuel_irrel k _ k
      ((c :: cs).dropWhile (fun a => !pyIsSpace a)).length
      (by omega) (by omega) (by omega)

theorem pySplit_tokens_good :
    ∀ n l, l.length ≤ n → ∀ t ∈ pySplit l,
      t ≠ [] ∧ ∀ c ∈ t, pyIsSpace c = false := by
  intro n
  induction n with
  | zero =>
    intro l hn t ht
    have hl : l = [] := List.eq_nil_of_length_eq_zero (Nat.le_zero.mp hn)
    subst hl
    rw [pySplit_nil_of (by rfl)] at ht
    simp at ht
  | succ n ih =>
    intro l hn t ht
    cases hd : l.dropWhile pyIsSpace with
    | nil =>
      rw [pySplit_nil_of hd] at ht
      simp at ht
    | cons c cs =>
      rw [pySplit_cons_of hd] at ht
      have h1 : pyIsSpace c = false := dropWhile_head_false hd
      rcases List.mem_cons.mp ht with rfl | ht'
      · constructor
        · rw [List.takeWhile_cons_of_pos (by simp [h1])]
          simp
        · intro x hx
          have := List.mem_takeWhile_imp hx
          simpa using this
      · have hlt := splitStep_length hd
        exact ih _ (by omega) t ht'

theorem joinSpace_two (t u : Str) (ts : List Str) :
    joinSpace (t :: u :: ts) = t ++ ' ' :: joinSpace (u :: ts) := rfl

theorem joinSpace_cons_decomp (u : Str) (ts : List Str) :
    ∃ w, joinSpace (u :: ts) = u ++ w := by
  cases ts with
  | nil => exact ⟨[], by simp [joinSpace]⟩
  | cons v ts' => exact ⟨' ' :: joinSpace (v :: ts'), rfl⟩

theorem noAdjSpaces_of_nonspace :
    ∀ l : Str, (∀ c ∈ l, pyIsSpace c = false) → noAdjSpaces l = true := by
  intro l
  induction l with
  | nil => intro _; rfl
  | cons a t ih =>
    intro h
    cases t with
    | nil => rfl
    | cons b t' =>
      simp only [noAdjSpaces, Bool.and_eq_true]
      refine ⟨?_, ih fun c hc => h c (List.mem_cons_of_mem _ hc)⟩
      have ha : pyIsSpace a = false := h a (List.mem_cons_self _ _)
      simp [ha]

theorem noAdjSpaces_tail {a : Char} {t : Str}
    (h : noAdjSpaces (a :: t) = true) : noAdjSpaces t = true := by
  cases t with
  | nil => rfl
  | cons b t' =>
    simp only [noAdjSpaces, Bool.and_eq_true] at h
    exact h.2

theorem noAdjSpaces_append_right :
    ∀ u s : Str, noAdjSpaces (u ++ s) = true → noAdjSpaces s = true := by
  intro u
  induction u with
  | nil => intro s h; simpa using h
  | cons a u' ih => intro s h; exact ih s (noAdjSpaces_tail h)

theorem noAdjSpaces_append_left :
    ∀ s v : Str, noAdjSpaces (s ++ v) = true → noAdjSpaces s = true := by
  intro s
  induction s with
  | nil => intro v _; rfl
  | cons x s' ih =>
    intro v h
    cases s' with
    | nil => rfl
    | cons y s'' =>
      simp only [List.cons_append, noAdjSpaces, Bool.and_eq_true] at h
      have h2 := ih v h.2
      simp only [noAdjSpaces, Bool.and_eq_true]
      exact ⟨h.1, h2⟩

theorem noAdjSpaces_append (a b : Str) (ha : ∀ c ∈ a, pyIsSpace c = false)
    (hb : noAdjSpaces b = true) : noAdjSpaces (a ++ b) = true := by
  induction a with
  | nil => simpa using hb
  | cons x a' ih =>
    have hx : pyIsSpace x = false := ha x (List.mem_cons_self _ _)
    have ih' := ih fun c hc => ha c (List.mem_cons_of_mem _ hc)
    cases a' with
    | nil =>
      cases b with
      | nil => rfl
      | cons y b' =>
        simp only [List.nil_append, List.cons_append, noAdjSpaces,
          Bool.and_eq_true]
        exact ⟨by simp [hx], hb⟩
    | cons x' a'' =>
      simp only [List.cons_append, noAdjSpaces, Bool.and_eq_true] at ih' ⊢
      refine ⟨by simp [hx], ?_⟩
      simpa using ih'

theorem joinSpace_noAdj :
    ∀ ts : List Str, (∀ t ∈ ts, t ≠ [] ∧ ∀ c ∈ t, pyIsSpace c = false) →
      noAdjSpaces (joinSpace ts) = true := by
  intro ts
  induction ts with
  | nil => intro _; rfl
  | cons t ts' ih =>
    intro h
    cases ts' with
    | nil =>
      exact noAdjSpaces_of_nonspace t (h t (List.mem_cons_self _ _)).2
    | cons u ts'' =>
      rw [joinSpace_two]
      apply noAdjSpaces_append t _ (h t (List.mem_cons_self _ _)).2
      obtain ⟨w, hw⟩ := joinSpace_cons_decomp u ts''
      have hu := h u (List.mem_cons_of_mem _ (List.mem_cons_self _ _))
      have hJ : noAdjSpaces (joinSpace (u :: ts'')) = true :=
        ih fun x hx => h x (List.mem_cons_of_mem _ hx)
      obtain ⟨uc, u', hu1⟩ := List.exists_cons_of_ne_nil hu.1
      subst hu1
      have huc : pyIsSpace uc = false := hu.2 uc (List.mem_cons_self _ _)
      rw [hw]
      rw [hw] at hJ
      simp only [List.cons_append] at hJ ⊢
      simp only [noAdjSpaces, Bool.and_eq_true]
      exact ⟨by simp [huc], hJ⟩

theorem contains_append_split (g : Str → Option Str) :
    ∀ a b : Str, containsUrlMatch g (a ++ b) = true →
      (∃ s, s <:+ a ∧ urlMatchAt g (s ++ b) = true) ∨
        containsUrlMatch g b = true := by
  intro a
  induction a with
  | nil => intro b h; right; simpa using h
  | cons c a' ih =>
    intro b h
    rw [List.cons_append, containsUrlMatch_cons, Bool.or_eq_true] at h
    rcases h with h | h
    · left
      exact ⟨c :: a', List.suffix_refl _, by simpa using h⟩
    · rcases ih b h with ⟨s, hs, hm⟩ | h'
      · left; exact ⟨s, hs.trans (List.suffix_cons c a'), hm⟩
      · right; exact h'

theorem prefix_split_strict {α : Type} :
    ∀ (s m p : List α), p <+: s ++ m →
      p <+: s ∨ ∃ u, u ≠ [] ∧ u <+: m ∧ p = s ++ u := by
  intro s
  induction s with
  | nil =>
    intro m p h
    cases p with
    | nil => left; exact List.nil_prefix
    | cons b p' =>
      right
      exact ⟨b :: p', by simp, by simpa using h, by simp⟩
  | cons a s' ih =>
    intro m p h
    cases p with
    | nil => left; exact List.nil_prefix
    | cons b p' =>
      rw [List.cons_append, List.cons_prefix_cons] at h
      obtain ⟨rfl, h'⟩ := h
      rcases ih m p' h' with h2 | ⟨u, hu, hum, rfl⟩
      · left; rw [List.cons_prefix_cons]; exact ⟨rfl, h2⟩
      · right; exact ⟨u, hu, hum, by simp⟩

theorem urlMatchAt_append (g : Str → Option Str)
    (hgP : ∀ l r, g l = some r → ∃ p, l = p ++ r ∧ p ≠ [] ∧
      ∀ c ∈ p, urlBodyChar c = true)
    (hgQ : ∀ p t t', g (p ++ t) = some t → g (p ++ t') = some t')
    {t : Str} (v : Str) (h : urlMatchAt g t = true) :
    urlMatchAt g (t ++ v) = true := by
  obtain ⟨d, r, hg, hd⟩ := urlMatchAt_elim h
  obtain ⟨p, hpe, _, _⟩ := hgP _ _ hg
  have hq : g (p ++ (d :: (r ++ v))) = some (d :: (r ++ v)) := by
    apply hgQ p (d :: r)
    rw [← hpe]; exact hg
  have htv : t ++ v = p ++ (d :: (r ++ v)) := by
    rw [hpe]; simp
  unfold urlMatchAt
  rw [htv, hq]
  exact hd

theorem containsUrlMatch_infixOf (g : Str → Option Str)
    (hgP : ∀ l r, g l = some r → ∃ p, l = p ++ r ∧ p ≠ [] ∧
      ∀ c ∈ p, urlBodyChar c = true)
    (hgQ : ∀ p t t', g (p ++ t) = some t → g (p ++ t') = some t')
    {s l : Str} (hi : s <:+: l) (h : containsUrlMatch g s = true) :
    containsUrlMatch g l = true := by
  obtain ⟨u, v, huv⟩ := hi
  rw [containsUrlMatch, List.any_eq_true] at h
  obtain ⟨tl, htl, hm⟩ := h
  have htls : tl <:+ s := (List.mem_tails tl s).mp htl
  have hm2 : urlMatchAt g (tl ++ v) = true := urlMatchAt_append g hgP hgQ v hm
  have hsuf : (tl ++ v) <:+ l := by
    obtain ⟨w, hw⟩ := htls
    refine ⟨u ++ w, ?_⟩
    rw [← huv, ← hw]
    simp
  rw [containsUrlMatch, List.any_eq_true]
  exact ⟨tl ++ v, (List.mem_tails _ _).mpr hsuf, hm2⟩

theorem shrink_of_P {g : Str → Option Str}
    (hgP : ∀ l r, g l = some r → ∃ p, l = p ++ r ∧ p ≠ [] ∧
      ∀ c ∈ p, urlBodyChar c = true) :
    ∀ l r, g l = some r → r.length < l.length := by
  intro l r h
  obtain ⟨p, rfl, hpne, _⟩ := hgP _ _ h
  have : 0 < p.length := List.length_pos.mpr hpne
  simp only [List.length_append]
  omega

theorem space_cons_no_match (g : Str → Option Str)
    (hgP : ∀ l r, g l = some r → ∃ p, l = p ++ r ∧ p ≠ [] ∧
      ∀ c ∈ p, urlBodyChar c = true)
    (J : Str) : urlMatchAt g (' ' :: J) = false := by
  by_contra hx
  have hx' : urlMatchAt g (' ' :: J) = true := by
    revert hx; cases urlMatchAt g (' ' :: J) <;> simp
  obtain ⟨d, r, hg, _⟩ := urlMatchAt_elim hx'
  obtain ⟨p, hpe, hpne, hpurl⟩ := hgP _ _ hg
  cases p with
  | nil => exact hpne rfl
  | cons e p' =>
    have he : e = ' ' := by
      rw [List.cons_append] at hpe
      exact (List.cons.injEq _ _ _ _ ▸ hpe).1.symm
    have := hpurl e (List.mem_cons_self _ _)
    rw [he] at this
    exact absurd this (by decide)

theorem joinSplit_transfer (g : Str → Option Str)
    (hgP : ∀ l r, g l = some r → ∃ p, l = p ++ r ∧ p ≠ [] ∧
      ∀ c ∈ p, urlBodyChar c = true)
    (hgQ : ∀ p t t', g (p ++ t) = some t → g (p ++ t') = some t') :
    ∀ n l, l.length ≤ n →
      containsUrlMatch g (joinSpace (pySplit l)) = true →
      containsUrlMatch g l = true := by
  intro n
  induction n with
  | zero =>
    intro l hn h
    have hl : l = [] := List.eq_nil_of_length_eq_zero (Nat.le_zero.mp hn)
    subst hl
    rw [pySplit_nil_of (by rfl)] at h
    have h0 : containsUrlMatch g [] = true := h
    rw [containsUrlMatch_nil g (shrink_of_P hgP)] at h0
    simp at h0
  | succ n ih =>
    intro l hn h
    cases hd : l.dropWhile pyIsSpace with
    | nil =>
      rw [pySplit_nil_of hd] at h
      have h0 : containsUrlMatch g [] = true := h
      rw [containsUrlMatch_nil g (shrink_of_P hgP)] at h0
      simp at h0
    | cons c cs =>
      rw [pySplit_cons_of hd] at h
      have hr0suf : (c :: cs) <:+ l := by
        have hx : l.dropWhile pyIsSpace <:+ l := List.dropWhile_suffix pyIsSpace
        rwa [hd] at hx
      have htokpref : (c :: cs).takeWhile (fun a => !pyIsSpace a) <+: c :: cs :=
        List.takeWhile_prefix _
      have htokapp : (c :: cs).takeWhile (fun a => !pyIsSpace a) ++
          (c :: cs).dropWhile (fun a => !pyIsSpace a) = c :: cs :=
        List.takeWhile_append_dropWhile _ _
      have hl2suf : (c :: cs).dropWhile (fun a => !pyIsSpace a) <:+ l :=
        (List.dropWhile_suffix _).trans hr0suf
      have hlen := splitStep_length hd
      cases hts : pySplit ((c :: cs).dropWhile (fun a => !pyIsSpace a)) with
      | nil =>
        rw [hts] at h
        have hinf : (c :: cs).takeWhile (fun a => !pyIsSpace a) <:+: l :=
          htokpref.isInfix.trans hr0suf.isInfix
        exact containsUrlMatch_infixOf g hgP hgQ hinf h
      | cons u ts'' =>
        rw [hts, joinSpace_two] at h
        rcases contains_append_split g _ _ h with ⟨s, hs, hm⟩ | h2
        · obtain ⟨d, r, hg, hdu⟩ := urlMatchAt_elim hm
          obtain ⟨p, hpe, hpne, hpurl⟩ := hgP _ _ hg
          have hpd : (p ++ [d]) <+: s ++ ' ' :: joinSpace (u :: ts'') := by
            rw [hpe]
            have he2 : p ++ d :: r = (p ++ [d]) ++ r := by simp
            rw [he2]
            exact List.prefix_append _ _
          have hpdurl : ∀ x ∈ p ++ [d], urlBodyChar x = true := by
            intro x hx
            rcases List.mem_append.mp hx with hx | hx
            · exact hpurl x hx
            · rw [List.mem_singleton.mp hx]; exact hdu
          rcases prefix_split_strict s _ _ hpd with hps | ⟨u', hu'ne, hu'pref, hpdeq⟩
          · obtain ⟨w, hw⟩ := hps
            have hseq : s = p ++ d :: w := by
              rw [← hw]; simp
            have hq : g (p ++ (d :: (w ++ (c :: cs).dropWhile
                (fun a => !pyIsSpace a)))) =
                some (d :: (w ++ (c :: cs).dropWhile (fun a => !pyIsSpace a))) := by
              apply hgQ p (d :: r)
              rw [← hpe]; exact hg
            have hmat : urlMatchAt g
                (s ++ (c :: cs).dropWhile (fun a => !pyIsSpace a)) = true := by
              unfold urlMatchAt
              rw [hseq]
              have : (p ++ d :: w) ++ (c :: cs).dropWhile (fun a => !pyIsSpace a) =
                  p ++ (d :: (w ++ (c :: cs).dropWhile (fun a => !pyIsSpace a))) := by
                simp
              rw [this, hq]
              exact hdu
            have hsuf2 : (s ++ (c :: cs).dropWhile (fun a => !pyIsSpace a)) <:+ l := by
              apply List.IsSuffix.trans _ hr0suf
              obtain ⟨w2, hw2⟩ := hs
              refine ⟨w2, ?_⟩
              rw [← List.append_assoc, hw2]
              exact htokapp
            rw [containsUrlMatch, List.any_eq_true]
            exact ⟨_, (List.mem_tails _ _).mpr hsuf2, hmat⟩
          · obtain ⟨uc, u'', hu'eq⟩ := List.exists_cons_of_ne_nil hu'ne
            subst hu'eq
            obtain ⟨w3, hw3⟩ := hu'pref
            have huc : uc = ' ' := by
              rw [List.cons_append] at hw3
              exact ((List.cons.injEq _ _ _ _).mp hw3).1
            have hmem : uc ∈ p ++ [d] := by
              rw [hpdeq]
              exact List.mem_append.mpr (Or.inr (List.mem_cons_self _ _))
            have := hpdurl uc hmem
            rw [huc] at this
            exact absurd this (by decide)
        · rw [containsUrlMatch_cons, Bool.or_eq_true] at h2
          rcases h2 with h2 | h2
          · rw [space_cons_no_match g hgP] at h2
            exact absurd h2 (by simp)
          · rw [← hts] at h2
            have h3 := ih _ (by omega) h2
            exact containsUrlMatch_of_suffix g hl2suf h3

theorem pyStrip_prefix_dropWhile (l : Str) :
    pyStrip l <+: l.dropWhile pyIsSpace := by
  unfold pyStrip
  have h1 : (l.dropWhile pyIsSpace).reverse.dropWhile pyIsSpace <:+
      (l.dropWhile pyIsSpace).reverse := List.dropWhile_suffix pyIsSpace
  have h2 := List.reverse_prefix.mpr h1
  rwa [List.reverse_reverse] at h2

theorem pyStrip_infixOf (l : Str) : pyStrip l <:+: l :=
  (pyStrip_prefix_dropWhile l).isInfix.trans
    (List.dropWhile_suffix pyIsSpace).isInfix

theorem collapse_transfer (g : Str → Option Str)
    (hgP : ∀ l r, g l = some r → ∃ p, l = p ++ r ∧ p ≠ [] ∧
      ∀ c ∈ p, urlBodyChar c = true)
    (hgQ : ∀ p t t', g (p ++ t) = some t → g (p ++ t') = some t')
    (l : Str) (h : containsUrlMatch g (collapseWs l) = true) :
    containsUrlMatch g l = true := by
  unfold collapseWs at h
  have h2 : containsUrlMatch g (joinSpace (pySplit l)) = true :=
    containsUrlMatch_infixOf g hgP hgQ (pyStrip_infixOf _) h
  exact joinSplit_transfer g hgP hgQ l.length l le_rfl h2

theorem noAdjSpaces_infixOf {s l : Str} (hi : s <:+: l)
    (h : noAdjSpaces l = true) : noAdjSpaces s = true := by
  obtain ⟨u, v, huv⟩ := hi
  have h1 : noAdjSpaces (s ++ v) = true := by
    apply noAdjSpaces_append_right u
    rw [← List.append_assoc, huv]
    exact h
  exact noAdjSpaces_append_left s v h1

theorem collapseWs_noAdj (l : Str) : noAdjSpaces (collapseWs l) = true := by
  unfold collapseWs
  apply noAdjSpaces_infixOf (pyStrip_infixOf _)
  exact joinSpace_noAdj (pySplit l) (pySplit_tokens_good l.length l le_rfl)

theorem cleanCommentText_noAdj (l : Str) :
    noAdjSpaces (cleanCommentText l) = true := collapseWs_noAdj _

theorem cleanCommentText_no_http (l : Str) :
    containsUrlMatch httpSchemeAfter (cleanCommentText l) = false := by
  by_contra hx
  have hx' : containsUrlMatch httpSchemeAfter (cleanCommentText l) = true := by
    revert hx; cases containsUrlMatch httpSchemeAfter (cleanCommentText l) <;> simp
  unfold cleanCommentText at hx'
  have h1 := collapse_transfer httpSchemeAfter (fun _ _ => httpScheme_decomp)
    (fun _ _ _ => httpScheme_ext) _ hx'
  have h2 := reSubDel_transfer wwwSchemeAfter (fun _ _ => wwwScheme_shrink)
    (fun _ _ => wwwScheme_decomp) httpSchemeAfter (fun _ _ => httpScheme_decomp)
    (fun _ _ _ => httpScheme_ext) (stripHttpUrls l).length _ le_rfl h1
  have h3 := reSubDel_no_self_match httpSchemeAfter
    (fun _ _ => httpScheme_shrink) (fun _ _ => httpScheme_decomp)
    (fun _ _ _ => httpScheme_ext) l.length l le_rfl
  rw [show stripHttpUrls l = reSubDel httpSchemeAfter l from rfl] at h2
  rw [h3] at h2
  exact absurd h2 (by simp)

theorem cleanCommentText_no_www (l : Str) :
    containsUrlMatch wwwSchemeAfter (cleanCommentText l) = false := by
  by_contra hx
  have hx' : containsUrlMatch wwwSchemeAfter (cleanCommentText l) = true := by
    revert hx; cases containsUrlMatch wwwSchemeAfter (cleanCommentText l) <;> simp
  unfold cleanCommentText at hx'
  have h1 := collapse_transfer wwwSchemeAfter (fun _ _ => wwwScheme_decomp)
    (fun _ _ _ => wwwScheme_ext) _ hx'
  have h3 := reSubDel_no_self_match wwwSchemeAfter
    (fun _ _ => wwwScheme_shrink) (fun _ _ => wwwScheme_decomp)
    (fun _ _ _ => wwwScheme_ext) (stripHttpUrls l).length (stripHttpUrls l) le_rfl
  rw [show stripWwwUrls (stripHttpUrls l) =
    reSubDel wwwSchemeAfter (stripHttpUrls l) from rfl] at h1
  rw [h3] at h1
  exact absurd h1 (by simp)

theorem cleanBodyOf_spec (a : Str) (e : CommentElem) :
    cleanBodyOf a e = [] ∨ ∃ raw, cleanBodyOf a e = cleanCommentText raw := by
  unfold cleanBodyOf
  dsimp only
  split
  · left; assumption
  · right; exact ⟨_, rfl⟩

/-- **C1.** Whenever `_extract_single_comment` returns a record, its
`comment_text` has length ≥ 2, contains no substring matching the
HTTP(S) URL-removal pattern or the bare-`www.` pattern, and has its
consecutive whitespace collapsed (no two adjacent whitespace characters);
moreover the body `"Check this out http://example.com/x?y=1 thanks"`
cleans to `"Check this out thanks"`. -/
theorem claim_C1 (now : Str) (e : CommentElem) (pi : PostContext)
    (r : CommentRecord) (h : extractSingleComment now e pi = some r) :
    2 ≤ r.comment_text.length ∧
    containsUrlMatch httpSchemeAfter r.comment_text = false ∧
    containsUrlMatch wwwSchemeAfter r.comment_text = false ∧
    noAdjSpaces r.comment_text = true ∧
    cleanCommentText "Check this out http://example.com/x?y=1 thanks".toList =
      "Check this out thanks".toList := by
  unfold extractSingleComment at h
  dsimp only at h
  split at h
  · exact absurd h (by simp)
  · split at h
    · exact absurd h (by simp)
    · rename_i hne hlen
      have hr := Option.some.inj h
      have htext : r.comment_text = cleanBodyOf (authorOf e).1 e := by
        rw [← hr]
      have hlen2 : 2 ≤ r.comment_text.length := by
        rw [htext]; omega
      refine ⟨hlen2, ?_, ?_, ?_, by decide⟩
      all_goals
        rcases cleanBodyOf_spec (authorOf e).1 e with hnil | ⟨raw, hraw⟩
      · rw [htext, hnil] at hlen2; simp at hlen2
      · rw [htext, hraw]; exact cleanCommentText_no_http raw
      · rw [htext, hnil] at hlen2; simp at hlen2
      · rw [htext, hraw]; exact cleanCommentText_no_www raw
      · rw [htext, hnil] at hlen2; simp at hlen2
      · rw [htext, hraw]; exact cleanCommentText_noAdj raw

/-- **C2.** The field extractor produces no record exactly when (a) neither
author nor body was located or (b) the cleaned body is shorter than 2
characters; when a body exists but no author was found the record carries
the author placeholder `Unknown User`; a node whose only text is the
UI-action label `Like` yields no record. -/
theorem claim_C2 (now : Str) (e : CommentElem) (pi : PostContext) :
    (extractSingleComment now e pi = none ↔
      ((authorOf e).1 = [] ∧ cleanBodyOf (authorOf e).1 e = []) ∨
        (cleanBodyOf (authorOf e).1 e).length < 2) ∧
    (∀ r, extractSingleComment now e pi = some r → (authorOf e).1 = [] →
      r.comment_author_name = "Unknown User".toList) ∧
    extractSingleComment now elemLike pi = none := by
  refine ⟨?_, ?_, by rfl⟩
  · unfold extractSingleComment
    dsimp only
    split
    · rename_i hcond
      constructor
      · intro _; exact Or.inl hcond
      · intro _; rfl
    · rename_i hcond
      split
      · rename_i hlen
        constructor
        · intro _; exact Or.inr hlen
        · intro _; rfl
      · rename_i hlen
        constructor
        · intro hx; exact absurd hx (by simp)
        · intro hor
          rcases hor with hc | hl
          · exact absurd hc hcond
          · exact absurd hl hlen
  · intro r h ha
    unfold extractSingleComment at h
    dsimp only at h
    split at h
    · exact absurd h (by simp)
    · split at h
      · exact absurd h (by simp)
      · have hr := Option.some.inj h
        rw [← hr]

theorem contentInner_nil :
    ∀ ts : List Str, contentInner [] ts =
      (((ts.map pyStrip).find? (fun x => !x.isEmpty)).getD []) := by
  intro ts
  induction ts with
  | nil => rfl
  | cons t ts' ih =>
    simp only [contentInner, List.map_cons, List.find?_cons]
    by_cases hx : pyStrip t = []
    · rw [if_neg (by simp [hx])]
      rw [ih]
      have : (!(pyStrip t).isEmpty) = false := by simp [hx]
      rw [this]
    · rw [if_pos ⟨hx, by
        have := List.length_pos.mpr hx
        simpa using this⟩]
      have : (!(pyStrip t).isEmpty) = true := by
        simp [List.isEmpty_iff, hx]
      rw [this]
      rfl

theorem contentOuter_nil (q : Str → List Str) :
    ∀ ss : List Str, contentOuter q [] ss =
      ((((ss.map q).flatten.map pyStrip).find? (fun x => !x.isEmpty)).getD []) := by
  intro ss
  induction ss with
  | nil => rfl
  | cons s ss' ih =>
    simp only [contentOuter, List.map_cons, List.flatten_cons, List.map_append,
      List.find?_append]
    rw [contentInner_nil]
    cases hf : ((q s).map pyStrip).find? (fun x => !x.isEmpty) with
    | none =>
      simp only [Option.or, Option.getD_none]
      rw [if_neg (by simp)]
      exact ih
    | some v =>
      have hv := List.find?_some hf
      have hvne : v ≠ [] := by
        simpa [List.isEmpty_iff] using hv
      simp only [Option.or, Option.getD_some]
      rw [if_pos hvne]

/-- **C3 (corrected).** The post-content extraction keeps the *first*
non-empty (stripped) candidate text of the selector chain, in chain order
— not the longest: the inner loop breaks as soon as a non-empty text is
assigned, so the longest-so-far comparison never sees a second candidate. -/
theorem claim_C3 (p : PostPage) :
    postContentRaw p =
      (((contentCandidates p).map pyStrip).find? (fun x => !x.isEmpty)).getD [] := by
  unfold postContentRaw contentCandidates
  exact contentOuter_nil p.qAllTexts contentSelectors

/-- **C3 counterexample.** On a page whose first content selector yields
the candidate texts `["ab", "abcd"]`, the extracted content is `"ab"`,
while the longest non-empty candidate is `"abcd"`: the extracted content
is not the maximum-length non-empty candidate, refuting the claim as
stated. -/
theorem claim_C3_counterexample :
    postContentRaw pageShortFirst = "ab".toList ∧
    "abcd".toList ∈ (contentCandidates pageShortFirst).map pyStrip ∧
    "abcd".toList ≠ [] ∧
    (postContentRaw pageShortFirst).length < "abcd".toList.length := by
  refine ⟨by decide, by decide, by decide, by decide⟩

theorem discoverLoop_spec {α : Type} (qAll : Str → List α) :
    ∀ sels : List Str, discoverLoop qAll [] sels =
      (match sels.find? (fun s => !(qAll s).isEmpty) with
       | some s => qAll s
       | none => []) := by
  intro sels
  induction sels with
  | nil => rfl
  | cons s ss ih =>
    simp only [discoverLoop, List.find?_cons]
    by_cases h : (qAll s).isEmpty
    · rw [if_neg (by simp [h])]
      have hp : (!(qAll s).isEmpty) = false := by simp [h]
      rw [hp]
      exact ih
    · rw [if_pos (by simp [h])]
      have hp : (!(qAll s).isEmpty) = true := by simp [h]
      rw [hp]

/-- **C5.** Comment discovery returns exactly the ordered matches of the
first selector of the fixed fallback chain that yields any matches, with
no merging across strategies, and the empty sequence (not an error) when
no selector matches. -/
theorem claim_C5 {α : Type} (qAll : Str → List α) :
    discoverComments qAll =
      (match commentSelectors.find? (fun s => !(qAll s).isEmpty) with
       | some s => qAll s
       | none => []) := by
  unfold discoverComments
  exact discoverLoop_spec qAll commentSelectors

theorem tsGood_eq_true_iff (a b x : Str) :
    tsGood a b x = true ↔
      x.length ≤ 50 ∧ x ≠ a ∧ x ≠ b ∧
        (relTimeSearch x || absTimeSearch x) = true := by
  unfold tsGood
  simp only [Bool.and_eq_true, Bool.or_eq_true, decide_eq_true_eq,
    Bool.not_eq_true', beq_eq_false_iff_ne]
  tauto

theorem findTimestamp_find? (author body : Str) :
    ∀ ts : List Str, findTimestamp author body ts =
      ((ts.map pyStrip).find? (tsGood author body)).getD [] := by
  intro ts
  induction ts with
  | nil => rfl
  | cons t ts' ih =>
    simp only [findTimestamp, List.map_cons, List.find?_cons]
    by_cases h50 : (pyStrip t).length > 50
    · rw [if_pos h50]
      have hg : tsGood author body (pyStrip t) = false := by
        rw [Bool.eq_false_iff]
        intro hx
        have := (tsGood_eq_true_iff _ _ _).mp hx
        omega
      rw [hg]
      exact ih
    · rw [if_neg h50]
      by_cases h1 : pyStrip t = author
      · rw [if_pos (by simp [h1])]
        have hg : tsGood author body (pyStrip t) = false := by
          rw [Bool.eq_false_iff]
          intro hx
          exact ((tsGood_eq_true_iff _ _ _).mp hx).2.1 h1
        rw [hg]
        exact ih
      · by_cases h2 : pyStrip t = body
        · rw [if_pos (by simp [h2])]
          have hg : tsGood author body (pyStrip t) = false := by
            rw [Bool.eq_false_iff]
            intro hx
            exact ((tsGood_eq_true_iff _ _ _).mp hx).2.2.1 h2
          rw [hg]
          exact ih
        · rw [if_neg (by simp [h1, h2])]
          by_cases hm : (relTimeSearch (pyStrip t) || absTimeSearch (pyStrip t)) = true
          · rw [if_pos hm]
            have hg : tsGood author body (pyStrip t) = true :=
              (tsGood_eq_true_iff _ _ _).mpr ⟨by omega, h1, h2, hm⟩
            rw [hg]
            rfl
          · rw [if_neg hm]
            have hg : tsGood author body (pyStrip t) = false := by
              rw [Bool.eq_false_iff]
              intro hx
              exact hm ((tsGood_eq_true_iff _ _ _).mp hx).2.2.2
            rw [hg]
            exact ih

/-- **C6.** For every record produced, the timestamp equals the first
stripped `a`/`span` candidate that is at most 50 characters, differs from
the author name and the body, and matches a time pattern — and the empty
string when no candidate qualifies; in particular a selected timestamp is
never longer than 50 characters and never equal to author or body. -/
theorem claim_C6 (now : Str) (e : CommentElem) (pi : PostContext)
    (r : CommentRecord) (h : extractSingleComment now e pi = some r) :
    r.comment_timestamp =
      ((e.timeTexts.map pyStrip).find?
        (tsGood r.comment_author_name r.comment_text)).getD [] ∧
    (r.comment_timestamp ≠ [] →
      r.comment_timestamp.length ≤ 50 ∧
      r.comment_timestamp ≠ r.comment_author_name ∧
      r.comment_timestamp ≠ r.comment_text ∧
      (relTimeSearch r.comment_timestamp || absTimeSearch r.comment_timestamp) = true) := by
  unfold extractSingleComment at h
  dsimp only at h
  split at h
  · exact absurd h (by simp)
  · split at h
    · exact absurd h (by simp)
    · have hr := Option.some.inj h
      have hts : r.comment_timestamp =
          findTimestamp r.comment_author_name r.comment_text e.timeTexts := by
        rw [← hr]
      rw [hts, findTimestamp_find?]
      refine ⟨rfl, ?_⟩
      cases hf : (e.timeTexts.map pyStrip).find?
          (tsGood r.comment_author_name r.comment_text) with
      | none =>
        intro hne
        simp at hne
      | some v =>
        intro _
        have hv := List.find?_some hf
        have hvp := (tsGood_eq_true_iff _ _ _).mp hv
        simpa using hvp

/-- Witness for C6 at a concrete node carrying the candidate `5m`. -/
theorem claim_C6_witness :
    extractSingleComment [] elemUrlBody ctx0 = some recUrlBody ∧
    recUrlBody.comment_timestamp =
      ((elemUrlBody.timeTexts.map pyStrip).find?
        (tsGood recUrlBody.comment_author_name recUrlBody.comment_text)).getD [] :=
  ⟨by decide, (claim_C6 [] elemUrlBody ctx0 recUrlBody (by decide)).1⟩

/-- **C7.** When a candidate node carries an aria-labeled author link (with
usable text) together with a generic nested author-styled link
(`span[dir="auto"] a`, `h4 a` or `strong a`), and the three selectors that
precede `a[aria-label]` in the fallback chain match nothing, author
extraction returns the aria-labeled strategy's result — the chain order,
not the DOM order (which this per-selector model never consults), decides. -/
theorem claim_C7 (e : CommentElem) (aria nested : LinkElem)
    (h1 : e.queryAuthor "a[role=\"link\"]".toList = none)
    (h2 : e.queryAuthor "a[href*=\"/user/\"]".toList = none)
    (h3 : e.queryAuthor "a[href*=\"/profile\"]".toList = none)
    (h4 : e.queryAuthor "a[aria-label]".toList = some aria)
    (h5 : pyStrip aria.text ≠ [])
    (_h6 : e.queryAuthor "span[dir=\"auto\"] a".toList = some nested ∨
          e.queryAuthor "h4 a".toList = some nested ∨
          e.queryAuthor "strong a".toList = some nested) :
    authorOf e = (pyStrip aria.text, aria.href.getD []) := by
  unfold authorOf authorSelectors
  simp only [List.map_cons, List.map_nil, findAuthorBySelectors, h1, h2, h3, h4]
  rw [if_pos h5]

/-- Witness for C7 at a node holding both kinds of link. -/
theorem claim_C7_witness :
    elemAriaVsNested.queryAuthor "a[aria-label]".toList =
      some { text := "Aria Author".toList, href := some "/aria".toList } ∧
    elemAriaVsNested.queryAuthor "h4 a".toList =
      some { text := "Nested Author".toList, href := some "/nested".toList } ∧
    authorOf elemAriaVsNested =
      ("Aria Author".toList, "/aria".toList) :=
  ⟨by decide, by decide,
    claim_C7 elemAriaVsNested
      { text := "Aria Author".toList, href := some "/aria".toList }
      { text := "Nested Author".toList, href := some "/nested".toList }
      (by decide) (by decide) (by decide) (by decide) (by decide)
      (Or.inr (Or.inl (by decide)))⟩

/-- **C8.** Post-content truncation: when the extracted content has 600
characters the stored `post_content` has exactly 503 characters (the first
500 plus the 3-character ellipsis marker), and a 400-character extracted
content is stored unchanged. -/
theorem claim_C8 :
    (∀ p : PostPage, (postContentRaw p).length = 600 →
      (extractPostInfo p).post_content.length = 503 ∧
      (extractPostInfo p).post_content =
        (postContentRaw p).take 500 ++ "...".toList) ∧
    (∀ p : PostPage, (postContentRaw p).length = 400 →
      (extractPostInfo p).post_content = postContentRaw p) := by
  constructor
  · intro p h
    have hpc : (extractPostInfo p).post_content =
        truncateContent (postContentRaw p) := rfl
    rw [hpc]
    unfold truncateContent
    rw [if_pos (by omega)]
    refine ⟨?_, rfl⟩
    rw [List.length_append, List.length_take, h]
    decide
  · intro p h
    have hpc : (extractPostInfo p).post_content =
        truncateContent (postContentRaw p) := rfl
    rw [hpc]
    unfold truncateContent
    rw [if_neg (by omega)]

set_option maxRecDepth 8000 in
/-- Witness for C8 on pages with one 600- and one 400-character candidate. -/
theorem claim_C8_witness :
    ((postContentRaw pageContent600).length = 600 ∧
      (extractPostInfo pageContent600).post_content.length = 503) ∧
    ((postContentRaw pageContent400).length = 400 ∧
      (extractPostInfo pageContent400).post_content = postContentRaw pageContent400) := by
  have h6 : (postContentRaw pageContent600).length = 600 := by decide
  have h4 : (postContentRaw pageContent400).length = 400 := by decide
  exact ⟨⟨h6, (claim_C8.1 pageContent600 h6).1⟩, ⟨h4, claim_C8.2 pageContent400 h4⟩⟩

/-- **C9.** Any exception raised during one post's extraction (modelled by
the navigation outcome, the one raisable step inside the `try` block) is
caught inside `crawl_post_comments`, which returns the empty list for that
post and never propagates, so the per-post loop of `main` processes every
post. -/
theorem claim_C9 :
    (∀ (maxScrolls : Nat) (now : Str) (env : CrawlEnv) (maxC : Option Nat)
        (err : Str), env.gotoResult = Except.error err →
      crawlPostComments maxScrolls now env maxC = []) ∧
    (∀ (maxScrolls : Nat) (now : Str) (maxC : Option Nat)
        (envs : List CrawlEnv),
      (crawlAllPosts maxScrolls now maxC envs).length = envs.length) := by
  constructor
  · intro ms now env maxC err h
    unfold crawlPostComments
    rw [h]
  · intro ms now maxC envs
    unfold crawlAllPosts
    exact List.length_map _ _

/-- Witness for C9 at an environment whose navigation times out. -/
theorem claim_C9_witness :
    envGotoFails.gotoResult = Except.error "Timeout".toList ∧
    crawlPostComments 10 [] envGotoFails none = [] :=
  ⟨rfl, claim_C9.1 10 [] envGotoFails none "Timeout".toList rfl⟩

theorem scrollLoopF_succ (env : Nat → Bool × Nat) (maxC : Option Nat)
    (ms fuel a : Nat) :
    scrollLoopF env maxC ms (fuel + 1) a =
      if a < ms then
        (if truthyNat maxC ∧ (env a).2 ≥ maxC.getD 0 then a + 1
         else if !(env a).1 ∧ a + 1 > 5 then a + 1
         else scrollLoopF env maxC ms fuel (a + 1))
      else a := rfl

theorem stopCond_succ_iff (env : Nat → Bool × Nat) (maxC : Option Nat)
    (a : Nat) :
    stopCond env maxC (a + 1) = true ↔
      ((truthyNat maxC = true ∧ (env a).2 ≥ maxC.getD 0) ∨
        ((env a).1 = false ∧ a + 1 > 5)) := by
  unfold stopCond
  simp only [Nat.add_sub_cancel, Bool.or_eq_true, Bool.and_eq_true,
    decide_eq_true_eq, Bool.not_eq_true']

theorem scrollLoopF_le (env : Nat → Bool × Nat) (maxC : Option Nat) (ms : Nat) :
    ∀ fuel a, a ≤ ms → scrollLoopF env maxC ms fuel a ≤ ms := by
  intro fuel
  induction fuel with
  | zero => intro a h; exact h
  | succ fuel ih =>
    intro a h
    rw [scrollLoopF_succ]
    by_cases hlt : a < ms
    · rw [if_pos hlt]
      by_cases hc1 : truthyNat maxC ∧ (env a).2 ≥ maxC.getD 0
      · rw [if_pos hc1]; omega
      · rw [if_neg hc1]
        by_cases hc2 : !(env a).1 ∧ a + 1 > 5
        · rw [if_pos hc2]; omega
        · rw [if_neg hc2]
          exact ih (a + 1) (by omega)
    · rw [if_neg hlt]; exact h

theorem scrollLoopF_spec (env : Nat → Bool × Nat) (maxC : Option Nat) (ms : Nat) :
    ∀ fuel a, ms ≤ a + fuel →
      (∀ i, a < i → i < scrollLoopF env maxC ms fuel a →
        stopCond env maxC i = false) ∧
      (scrollLoopF env maxC ms fuel a < ms →
        stopCond env maxC (scrollLoopF env maxC ms fuel a) = true) := by
  intro fuel
  induction fuel with
  | zero =>
    intro a hms
    constructor
    · intro i h1 h2
      simp only [scrollLoopF] at h2
      omega
    · intro h
      simp only [scrollLoopF] at h
      omega
  | succ fuel ih =>
    intro a hms
    rw [scrollLoopF_succ]
    by_cases hlt : a < ms
    · rw [if_pos hlt]
      by_cases hc1 : truthyNat maxC ∧ (env a).2 ≥ maxC.getD 0
      · rw [if_pos hc1]
        constructor
        · intro i h1 h2; omega
        · intro _
          exact (stopCond_succ_iff env maxC a).mpr (Or.inl ⟨hc1.1, hc1.2⟩)
      · rw [if_neg hc1]
        by_cases hc2 : !(env a).1 ∧ a + 1 > 5
        · rw [if_pos hc2]
          constructor
          · intro i h1 h2; omega
          · intro _
            refine (stopCond_succ_iff env maxC a).mpr (Or.inr ⟨?_, hc2.2⟩)
            have := hc2.1
            simpa using this
        · rw [if_neg hc2]
          have ih' := ih (a + 1) (by omega)
          constructor
          · intro i h1 h2
            by_cases hia : i = a + 1
            · subst hia
              rw [Bool.eq_false_iff]
              intro hx
              rcases (stopCond_succ_iff env maxC a).mp hx with hx1 | hx2
              · exact hc1 ⟨hx1.1, hx1.2⟩
              · exact hc2 ⟨by simp [hx2.1], hx2.2⟩
            · exact ih'.1 i (by omega) h2
          · exact ih'.2
    · rw [if_neg hlt]
      constructor
      · intro i h1 h2; omega
      · intro h; omega

/-- **C4.** The convergence loop performs at most `MAX_SCROLL_ATTEMPTS`
scroll iterations; it never runs past an iteration whose post-scroll check
fires (target reached, or nothing clicked after more than 5 iterations),
and when it stops before the budget, the stop condition holds at the last
iteration; with target 5 and a feed revealing 2 new comments per scroll it
performs exactly 3 iterations (budget 10). -/
theorem claim_C4 (env : Nat → Bool × Nat) (maxC : Option Nat) (ms : Nat) :
    scrollIterations env maxC ms ≤ ms ∧
    (∀ i, 1 ≤ i → i < scrollIterations env maxC ms →
      stopCond env maxC i = false) ∧
    (scrollIterations env maxC ms < ms →
      stopCond env maxC (scrollIterations env maxC ms) = true) ∧
    scrollIterations (fun i => (false, 2 * (i + 1))) (some 5) 10 = 3 := by
  have hspec := scrollLoopF_spec env maxC ms ms 0 (by omega)
  exact ⟨scrollLoopF_le env maxC ms ms 0 (by omega),
    fun i h1 h2 => hspec.1 i (by omega) h2, hspec.2, by decide⟩

/-- Witness for C4 on the 2-new-comments-per-scroll scenario. -/
theorem claim_C4_witness :
    (1 ≤ 2 ∧ 2 < scrollIterations (fun i => (false, 2 * (i + 1))) (some 5) 10 ∧
      stopCond (fun i => (false, 2 * (i + 1))) (some 5) 2 = false) ∧
    (scrollIterations (fun i => (false, 2 * (i + 1))) (some 5) 10 < 10 ∧
      stopCond (fun i => (false, 2 * (i + 1))) (some 5)
        (scrollIterations (fun i => (false, 2 * (i + 1))) (some 5) 10) = true) :=
  ⟨⟨by decide, by decide,
    (claim_C4 (fun i => (false, 2 * (i + 1))) (some 5) 10).2.1 2 (by decide)
      (by decide)⟩,
   ⟨by decide,
    (claim_C4 (fun i => (false, 2 * (i + 1))) (some 5) 10).2.2.1 (by decide)⟩⟩

theorem scrollLoopF_zero_cap (env : Nat → Bool × Nat) (ms : Nat) :
    ∀ fuel a, scrollLoopF env (some 0) ms fuel a =
      scrollLoopF env none ms fuel a := by
  intro fuel
  induction fuel with
  | zero => intro a; rfl
  | succ fuel ih =>
    intro a
    rw [scrollLoopF_succ, scrollLoopF_succ]
    have h1 : ¬(truthyNat (some 0) ∧ (env a).2 ≥ (Option.getD (some 0) 0)) := by
      intro h
      have := h.1
      simp [truthyNat] at this
    have h2 : ¬(truthyNat none ∧ (env a).2 ≥ (Option.getD none 0)) := by
      intro h
      have := h.1
      simp [truthyNat] at this
    rw [if_neg h1, if_neg h2, ih (a + 1)]

/-- **C10.** `max_comments = 0` is falsy in Python, so the target-count
stop condition is never evaluated: the loop behaves exactly as with no cap
(`None`), running until the no-more-buttons condition or the scroll budget
stops it, and `crawl_post_comments` extracts the same records either way. -/
theorem claim_C10 :
    (∀ (env : Nat → Bool × Nat) (ms : Nat),
      scrollIterations env (some 0) ms = scrollIterations env none ms) ∧
    (∀ (ms : Nat) (now : Str) (env : CrawlEnv),
      crawlPostComments ms now env (some 0) =
        crawlPostComments ms now env none) := by
  constructor
  · intro env ms
    unfold scrollIterations
    exact scrollLoopF_zero_cap env ms ms 0
  · intro ms now env
    rfl

/-- Witness for C1 at a concrete node whose body carries an HTTP URL. -/
theorem claim_C1_witness :
    extractSingleComment [] elemUrlBody ctx0 = some recUrlBody ∧
    2 ≤ recUrlBody.comment_text.length ∧
    containsUrlMatch httpSchemeAfter recUrlBody.comment_text = false :=
  ⟨by decide, (claim_C1 [] elemUrlBody ctx0 recUrlBody (by decide)).1,
    (claim_C1 [] elemUrlBody ctx0 recUrlBody (by decide)).2.1⟩

/-- Witness for C2 at a concrete node with body text but no author link. -/
theorem claim_C2_witness :
    extractSingleComment [] elemNoAuthor ctx0 = some recNoAuthor ∧
    (authorOf elemNoAuthor).1 = [] ∧
    recNoAuthor.comment_author_name = "Unknown User".toList :=
  ⟨by decide, by decide,
    (claim_C2 [] elemNoAuthor ctx0).2.1 recNoAuthor (by decide) (by decide)⟩
